import Mathlib

/-!
Verification of the user-registry record store.

The development shallowly embeds the core of the repository:

* the record type (user.rs), with its four text fields;
* the store (data.rs), holding a map from numeric identifiers to records
  together with a cached next identifier, and the operations
  add_user / user / remove_user / reset with the lowest-free-id
  recomputation calculate_next_id;
* the JSON persistence layer (command/data.rs), with the serde field tags
  i / u and n / s / e / p, a serializer producing the compact document
  and a deserializer over a small JSON value type, plus a JSON text parser;
* the caller-facing command layer (command.rs), in particular reset, which
  deletes the backing file.

The HashMap of the source is represented canonically as an association
list with strictly increasing keys; insertion replaces the value of an
existing key exactly as HashMap::insert does.  The while-loop of
calculate_next_id is given explicit fuel; the fuel bound is large enough
that the scan always finds the least absent key.
-/

namespace UserRegistry

/-- A user record: the four text fields of user_registry_lib/src/user.rs. -/
structure User where
  first_name : String
  last_name : String
  email : String
  phone_number : String
deriving DecidableEq

/-- Key membership, modelling HashMap::contains_key on the users map. -/
def containsKey (k : Nat) : List (Nat × User) → Bool
  | [] => false
  | p :: m => p.1 == k || containsKey k m

/-- Value lookup, modelling HashMap::get. -/
def lookupKey (k : Nat) : List (Nat × User) → Option User
  | [] => none
  | p :: m => if p.1 == k then some p.2 else lookupKey k m

/-- Insertion, modelling HashMap::insert: replaces the value when the key
is present.  The canonical representation keeps keys sorted. -/
def mapInsert (k : Nat) (v : User) : List (Nat × User) → List (Nat × User)
  | [] => [(k, v)]
  | p :: m =>
    if k < p.1 then (k, v) :: p :: m
    else if k == p.1 then (k, v) :: m
    else p :: mapInsert k v m

/-- Key removal, modelling HashMap::remove's effect on the map. -/
def eraseKey (k : Nat) : List (Nat × User) → List (Nat × User)
  | [] => []
  | p :: m => if p.1 == k then eraseKey k m else p :: eraseKey k m

/-- The largest key of the map (0 when empty); used only to bound the
fuel of the next-id scan. -/
def maxKey : List (Nat × User) → Nat
  | [] => 0
  | p :: m => max p.1 (maxKey m)

/-- The while-loop of Data::calculate_next_id: starting from i, walk
upwards until a key absent from the map is found.  Fuel only serves
termination; it is always chosen large enough. -/
def scanNextId (m : List (Nat × User)) : Nat → Nat → Nat
  | 0, i => i
  | fuel + 1, i => if containsKey i m then scanNextId m fuel (i + 1) else i

/-- The value computed by Data::calculate_next_id: the smallest natural
number that is not a key of the map. -/
def calcNextId (m : List (Nat × User)) : Nat :=
  scanNextId m (maxKey m + 2) 0

/-- The store of user_registry_lib/src/data.rs: the cached next id and
the users map. -/
structure Data where
  next_id : Nat
  users : List (Nat × User)
deriving DecidableEq

/-- Data::new / Data::default: empty map, next id 0. -/
def Data.new : Data := ⟨0, []⟩

/-- Data::calculate_next_id as a state transformer. -/
def Data.calculate_next_id (d : Data) : Data :=
  { d with next_id := calcNextId d.users }

/-- Data::add_user: insert at the cached next id, recompute, return the
assigned id. -/
def Data.add_user (d : Data) (u : User) : Nat × Data :=
  let id := d.next_id
  let d1 : Data := { d with users := mapInsert id u d.users }
  (id, d1.calculate_next_id)

/-- Data::user: lookup by id. -/
def Data.user (d : Data) (id : Nat) : Option User :=
  lookupKey id d.users

/-- Data::remove_user: remove the entry (returning the old record if it
was present), then recompute the next id unconditionally. -/
def Data.remove_user (d : Data) (id : Nat) : Option User × Data :=
  let removed := lookupKey id d.users
  let d1 : Data := { d with users := eraseKey id d.users }
  (removed, d1.calculate_next_id)

/-- Data::reset: on an empty map return false and change nothing;
otherwise clear the map, recompute the next id, and return true. -/
def Data.reset (d : Data) : Bool × Data :=
  if d.users.isEmpty then (false, d)
  else
    let d1 : Data := { d with users := [] }
    (true, d1.calculate_next_id)

/-- The stores reachable from the empty store by add, remove and reset. -/
inductive Reachable : Data → Prop where
  | empty : Reachable Data.new
  | add {d : Data} (u : User) : Reachable d → Reachable (d.add_user u).2
  | remove {d : Data} (id : Nat) : Reachable d → Reachable (d.remove_user id).2
  | reset {d : Data} : Reachable d → Reachable d.reset.2

/-- n is the smallest natural number that is not a key of m. -/
def IsMinFree (m : List (Nat × User)) (n : Nat) : Prop :=
  containsKey n m = false ∧ ∀ j, j < n → containsKey j m = true

instance (m : List (Nat × User)) (n : Nat) : Decidable (IsMinFree m n) :=
  inferInstanceAs (Decidable (_ ∧ _))

/-- The first user of the worked example in the specification. -/
def uJohn : User := ⟨"John", "Doe", "john@example.com", "5551234"⟩

/-- The second user of the worked example in the specification. -/
def uJane : User := ⟨"Jane", "Roe", "jane@example.com", "5555678"⟩

/-- A third sample user. -/
def uJim : User := ⟨"Jim", "Poe", "jim@example.com", "5559999"⟩

/-- The store obtained from the empty store by three adds (ids 0, 1, 2). -/
def d3 : Data :=
  ((((Data.new.add_user uJohn).2).add_user uJane).2.add_user uJim).2

/-- Every store in which exactly the ids below next_id are present. -/
def FullRange (d : Data) : Prop :=
  ∀ j, containsKey j d.users = true ↔ j < d.next_id

/-- Folding a sequence of adds over a store. -/
def addAll (d : Data) (us : List User) : Data :=
  us.foldl (fun d u => (d.add_user u).2) d

/-- JSON values.  Numbers are restricted to the non-negative integers,
which is all the persisted format of this repository produces (the next
id); other numerals are rejected by the parser below, which for this
format coincides with a usize deserialization failure. -/
inductive Json where
  | null
  | bool (b : Bool)
  | num (n : Nat)
  | str (s : String)
  | arr (elems : List Json)
  | obj (fields : List (String × Json))

/-- The decimal digit character for n < 10. -/
def digitChar (n : Nat) : Char := Char.ofNat (48 + n)

/-- Decimal digits of n, most significant first; fuel bounds the
recursion and any fuel above the digit count is enough. -/
def natDigits : Nat → Nat → List Char
  | 0, _ => []
  | fuel + 1, n =>
    if n < 10 then [digitChar n]
    else natDigits fuel (n / 10) ++ [digitChar (n % 10)]

/-- The decimal string of a natural number (usize Display). -/
def natToString (n : Nat) : String := ⟨natDigits (n + 1) n⟩

/-- The value of a decimal digit character, if it is one. -/
def digitVal? (c : Char) : Option Nat :=
  if 48 ≤ c.toNat ∧ c.toNat ≤ 57 then some (c.toNat - 48) else none

/-- Horner evaluation of a digit string onto an accumulator; fails at
the first non-digit. -/
def decValAux : List Char → Nat → Option Nat
  | [], acc => some acc
  | c :: cs, acc =>
    match digitVal? c with
    | some d => decValAux cs (acc * 10 + d)
    | none => none

/-- Parse a non-empty all-digit string as a natural number. -/
def decToNat? : List Char → Option Nat
  | [] => none
  | c :: cs => decValAux (c :: cs) 0

/-- Lower-case hexadecimal digit character for n < 16. -/
def hexDigitChar (n : Nat) : Char :=
  if n < 10 then digitChar n else Char.ofNat (97 + (n - 10))

/-- JSON string escaping of one character, as serde_json emits it. -/
def escapeChar (c : Char) : List Char :=
  if c = '"' then ['\\', '"']
  else if c = '\\' then ['\\', '\\']
  else if c = '\n' then ['\\', 'n']
  else if c = '\t' then ['\\', 't']
  else if c = '\r' then ['\\', 'r']
  else if c.toNat = 8 then ['\\', 'b']
  else if c.toNat = 12 then ['\\', 'f']
  else if c.toNat < 32 then
    ['\\', 'u', '0', '0', hexDigitChar (c.toNat / 16), hexDigitChar (c.toNat % 16)]
  else [c]

/-- JSON string escaping. -/
def escapeString (s : String) : String :=
  ⟨s.data.foldr (fun c acc => escapeChar c ++ acc) []⟩

/-- A JSON string literal: quotes around the escaped text. -/
def quoteString (s : String) : String := "\"" ++ escapeString s ++ "\""

/-- serde_json serialization of one record, field tags n, s, e, p in
declaration order. -/
def User.printJson (u : User) : String :=
  "\x7b\"n\":" ++ quoteString u.first_name ++
    ",\"s\":" ++ quoteString u.last_name ++
    ",\"e\":" ++ quoteString u.email ++
    ",\"p\":" ++ quoteString u.phone_number ++ "\x7d"

/-- The comma-separated members of the users map object: decimal string
key, then the record. -/
def printEntries : List (Nat × User) → String
  | [] => ""
  | [p] => quoteString (natToString p.1) ++ ":" ++ p.2.printJson
  | p :: q :: m =>
    quoteString (natToString p.1) ++ ":" ++ p.2.printJson ++ "," ++ printEntries (q :: m)

/-- serde_json serialization of the whole store: field tags i and u in
declaration order, compact form. -/
def Data.printJson (d : Data) : String :=
  "\x7b\"i\":" ++ natToString d.next_id ++ ",\"u\":\x7b" ++ printEntries d.users ++ "\x7d\x7d"

/-- The JSON document of one record. -/
def User.toJson (u : User) : Json :=
  Json.obj [("n", Json.str u.first_name), ("s", Json.str u.last_name),
    ("e", Json.str u.email), ("p", Json.str u.phone_number)]

/-- The JSON document of the whole store. -/
def Data.toJson (d : Data) : Json :=
  Json.obj [("i", Json.num d.next_id),
    ("u", Json.obj (d.users.map fun p => (natToString p.1, User.toJson p.2)))]

/-- First field of an object with the given name (derived serde
deserializers ignore unknown fields and look fields up by name). -/
def jlookup (k : String) : List (String × Json) → Option Json
  | [] => none
  | p :: fs => if p.1 == k then some p.2 else jlookup k fs

/-- Deserialization of one record: an object carrying string fields n,
s, e and p; anything else is rejected. -/
def User.fromJson : Json → Option User
  | Json.obj fs =>
    match jlookup "n" fs, jlookup "s" fs, jlookup "e" fs, jlookup "p" fs with
    | some (Json.str a), some (Json.str b), some (Json.str c), some (Json.str d) =>
      some ⟨a, b, c, d⟩
    | _, _, _, _ => none
  | _ => none

/-- Building the users map from the members of the u object: each key
parses as a decimal usize, each value as a record, inserted in document
order (later duplicates overwrite, as in a HashMap). -/
def parseUsersAux : List (String × Json) → List (Nat × User) → Option (List (Nat × User))
  | [], acc => some acc
  | f :: fs, acc =>
    match decToNat? f.1.data, User.fromJson f.2 with
    | some id, some u => parseUsersAux fs (mapInsert id u acc)
    | _, _ => none

/-- Deserialization of the whole store: an object carrying the integer
field i and the map object u. -/
def Data.fromJson : Json → Option Data
  | Json.obj fs =>
    match jlookup "i" fs, jlookup "u" fs with
    | some (Json.num i), some (Json.obj ufs) =>
      (parseUsersAux ufs []).map fun m => ⟨i, m⟩
    | _, _ => none
  | _ => none

/-- JSON whitespace. -/
def isWs (c : Char) : Bool := c = ' ' || c = '\t' || c = '\n' || c = '\r'

/-- Skip leading JSON whitespace. -/
def skipWs (cs : List Char) : List Char := cs.dropWhile isWs

/-- The opening brace character. -/
def lbraceChar : Char := Char.ofNat 123

/-- The closing brace character. -/
def rbraceChar : Char := Char.ofNat 125

/-- Hexadecimal digit value, if any. -/
def hexVal? (c : Char) : Option Nat :=
  if 48 ≤ c.toNat ∧ c.toNat ≤ 57 then some (c.toNat - 48)
  else if 97 ≤ c.toNat ∧ c.toNat ≤ 102 then some (c.toNat - 87)
  else if 65 ≤ c.toNat ∧ c.toNat ≤ 70 then some (c.toNat - 55)
  else none

/-- Body of a JSON string literal after the opening quote: returns the
unescaped content and the input after the closing quote. -/
def parseStringBody : List Char → Option (List Char × List Char)
  | [] => none
  | '"' :: rest => some ([], rest)
  | '\\' :: c :: rest =>
    if c = '"' ∨ c = '\\' ∨ c = '/' then
      (parseStringBody rest).map fun r => ((if c = '/' then '/' else c) :: r.1, r.2)
    else if c = 'n' then (parseStringBody rest).map fun r => ('\n' :: r.1, r.2)
    else if c = 't' then (parseStringBody rest).map fun r => ('\t' :: r.1, r.2)
    else if c = 'r' then (parseStringBody rest).map fun r => ('\r' :: r.1, r.2)
    else if c = 'b' then (parseStringBody rest).map fun r => (Char.ofNat 8 :: r.1, r.2)
    else if c = 'f' then (parseStringBody rest).map fun r => (Char.ofNat 12 :: r.1, r.2)
    else if c = 'u' then
      match rest with
      | h1 :: h2 :: h3 :: h4 :: rest2 =>
        match hexVal? h1, hexVal? h2, hexVal? h3, hexVal? h4 with
        | some x1, some x2, some x3, some x4 =>
          (parseStringBody rest2).map fun r =>
            (Char.ofNat (((x1 * 16 + x2) * 16 + x3) * 16 + x4) :: r.1, r.2)
        | _, _, _, _ => none
      | _ => none
    else none
  | c :: rest =>
    if c.toNat < 32 then none
    else (parseStringBody rest).map fun r => (c :: r.1, r.2)

/-- A JSON number at the head of the input (digits only; a leading
minus sign is rejected here where serde_json would instead reject the
negative value when decoding the usize field). -/
def parseNumber (cs : List Char) : Option (Json × List Char) :=
  match decToNat? (cs.takeWhile fun c => c.isDigit) with
  | some n => some (Json.num n, cs.dropWhile fun c => c.isDigit)
  | none => none

/-- What the recursive-descent parser is currently reading: a value, the
remaining members of an object, or the remaining elements of an array. -/
inductive PMode where
  | value
  | members (acc : List (String × Json))
  | elems (acc : List Json)

/-- Recursive-descent JSON parser.  Fuel only bounds nesting of the
grammar; one unit is consumed per recursive step and the top level
supplies more fuel than the input has characters. -/
def parseF : Nat → PMode → List Char → Option (Json × List Char)
  | 0, _, _ => none
  | fuel + 1, PMode.value, cs =>
    match skipWs cs with
    | [] => none
    | c :: rest =>
      if c = lbraceChar then
        match skipWs rest with
        | [] => none
        | c2 :: rest2 =>
          if c2 = rbraceChar then some (Json.obj [], rest2)
          else parseF fuel (PMode.members []) (c2 :: rest2)
      else if c = '[' then
        match skipWs rest with
        | [] => none
        | c2 :: rest2 =>
          if c2 = ']' then some (Json.arr [], rest2)
          else parseF fuel (PMode.elems []) (c2 :: rest2)
      else if c = '"' then
        match parseStringBody rest with
        | some r => some (Json.str ⟨r.1⟩, r.2)
        | none => none
      else if c = 't' then
        match rest with
        | 'r' :: 'u' :: 'e' :: rest2 => some (Json.bool true, rest2)
        | _ => none
      else if c = 'f' then
        match rest with
        | 'a' :: 'l' :: 's' :: 'e' :: rest2 => some (Json.bool false, rest2)
        | _ => none
      else if c = 'n' then
        match rest with
        | 'u' :: 'l' :: 'l' :: rest2 => some (Json.null, rest2)
        | _ => none
      else if c.isDigit then parseNumber (c :: rest)
      else none
  | fuel + 1, PMode.members acc, cs =>
    match skipWs cs with
    | [] => none
    | c :: rest =>
      if c = '"' then
        match parseStringBody rest with
        | some r =>
          match skipWs r.2 with
          | [] => none
          | c2 :: rest2 =>
            if c2 = ':' then
              match parseF fuel PMode.value rest2 with
              | some (v, rest3) =>
                match skipWs rest3 with
                | [] => none
                | c3 :: rest4 =>
                  if c3 = ',' then
                    parseF fuel (PMode.members (acc ++ [(⟨r.1⟩, v)])) rest4
                  else if c3 = rbraceChar then
                    some (Json.obj (acc ++ [(⟨r.1⟩, v)]), rest4)
                  else none
              | none => none
            else none
        | none => none
      else none
  | fuel + 1, PMode.elems acc, cs =>
    match parseF fuel PMode.value cs with
    | some (v, rest) =>
      match skipWs rest with
      | [] => none
      | c :: rest2 =>
        if c = ',' then parseF fuel (PMode.elems (acc ++ [v])) rest2
        else if c = ']' then some (Json.arr (acc ++ [v]), rest2)
        else none
    | none => none

/-- Parse a whole JSON document: one value with only whitespace after it. -/
def parseJson (s : String) : Option Json :=
  match parseF (s.length + 1) PMode.value s.data with
  | some (j, rest) => if skipWs rest = [] then some j else none
  | none => none

/-- Deserialize file contents into a store, as serde_json::from_str
followed by the derived Deserialize. -/
def decodeData (s : String) : Option Data :=
  (parseJson s).bind Data.fromJson

/-- Errors of the command layer's file operations. -/
inductive IoErr where
  | notFound
  | deserialize
deriving DecidableEq

/-- command/data.rs read_data over an abstract file: none models a path
that does not exist, some s a file with contents s.  A missing or empty
file yields the default (empty) store; otherwise the contents must
deserialize. -/
def read_data (file : Option String) : Except IoErr Data :=
  let contents := file.getD ""
  if contents = "" then Except.ok Data.new
  else
    match decodeData contents with
    | some d => Except.ok d
    | none => Except.error IoErr.deserialize

/-- command/data.rs save_data: the serialized document written as the
file's whole new contents. -/
def save_data (d : Data) : String := d.printJson

/-- command.rs reset: fs::remove_file on the backing file, which fails
with a not-found I/O error when the file does not exist and otherwise
deletes the file (it performs no load or save). -/
def command_reset (file : Option String) : Except IoErr (Option String) :=
  match file with
  | none => Except.error IoErr.notFound
  | some _ => Except.ok none

/-- save after load, at the document level. -/
def saveLoad (j : Json) : Option Json :=
  (Data.fromJson j).map Data.toJson

/-- The canonical-representation invariant of the users map: strictly
increasing keys. -/
def SortedKeys (m : List (Nat × User)) : Prop :=
  List.Pairwise (fun p q => p.1 < q.1) m

/-- The two-record store of the specification example: John then Jane. -/
def dJohnJane : Data := ((Data.new.add_user uJohn).2.add_user uJane).2

/-- load then save at the file-contents level. -/
def loadSaveStr (s : String) : Option String :=
  (decodeData s).map save_data

theorem le_maxKey_of_containsKey {m : List (Nat × User)} {j : Nat}
    (h : containsKey j m = true) : j ≤ maxKey m := by
  induction m with
  | nil => simp [containsKey] at h
  | cons p m ih =>
    simp only [containsKey, Bool.or_eq_true, beq_iff_eq] at h
    rcases h with h | h
    · subst h; exact le_max_left _ _
    · exact le_trans (ih h) (le_max_right _ _)

theorem containsKey_maxKey_succ (m : List (Nat × User)) :
    containsKey (maxKey m + 1) m = false := by
  by_contra h
  have h' : containsKey (maxKey m + 1) m = true := by
    cases hb : containsKey (maxKey m + 1) m
    · exact absurd hb h
    · rfl
  exact absurd (le_maxKey_of_containsKey h') (by omega)

theorem scanNextId_spec (m : List (Nat × User)) :
    ∀ fuel i, (∀ j, j < i → containsKey j m = true) →
      (∃ t, t < fuel ∧ containsKey (i + t) m = false) →
      IsMinFree m (scanNextId m fuel i) := by
  intro fuel
  induction fuel with
  | zero => intro i _ h; exact absurd h (by simp)
  | succ fuel ih =>
    intro i hpre hex
    cases hc : containsKey i m with
    | false =>
      simp only [scanNextId, hc, if_false]
      exact ⟨hc, hpre⟩
    | true =>
      simp only [scanNextId, hc, if_true]
      apply ih
      · intro j hj
        rcases Nat.lt_succ_iff_lt_or_eq.mp hj with h | h
        · exact hpre j h
        · subst h; exact hc
      · rcases hex with ⟨t, ht, hct⟩
        cases t with
        | zero => rw [Nat.add_zero] at hct; rw [hct] at hc; exact absurd hc (by simp)
        | succ t' =>
          refine ⟨t', by omega, ?_⟩
          have : i + 1 + t' = i + (t' + 1) := by omega
          rw [this]; exact hct

theorem calcNextId_isMinFree (m : List (Nat × User)) :
    IsMinFree m (calcNextId m) := by
  apply scanNextId_spec
  · intro j hj; omega
  · exact ⟨maxKey m + 1, by omega, by simpa using containsKey_maxKey_succ m⟩

theorem IsMinFree.unique {m : List (Nat × User)} {a b : Nat}
    (ha : IsMinFree m a) (hb : IsMinFree m b) : a = b := by
  rcases Nat.lt_trichotomy a b with h | h | h
  · have := hb.2 a h; rw [ha.1] at this; exact absurd this (by simp)
  · exact h
  · have := ha.2 b h; rw [hb.1] at this; exact absurd this (by simp)

theorem calcNextId_empty : calcNextId [] = 0 := rfl

/-- Invariant A: every reachable store caches the least absent key. -/
theorem reachable_isMinFree {d : Data} (h : Reachable d) :
    IsMinFree d.users d.next_id := by
  induction h with
  | empty =>
    refine ⟨rfl, fun j hj => ?_⟩
    simp [Data.new] at hj
  | add u _ _ =>
    exact calcNextId_isMinFree _
  | remove id _ _ =>
    exact calcNextId_isMinFree _
  | reset h ih =>
    rename_i d'
    by_cases he : d'.users.isEmpty
    · simpa [Data.reset, he] using ih
    · simpa [Data.reset, he] using calcNextId_isMinFree ([] : List (Nat × User))

theorem containsKey_mapInsert_iff {k j : Nat} {v : User} {m : List (Nat × User)} :
    containsKey j (mapInsert k v m) = true ↔ (j = k ∨ containsKey j m = true) := by
  induction m with
  | nil =>
    simp only [mapInsert, containsKey, Bool.or_eq_true, beq_iff_eq]
    constructor
    · rintro (h1 | h1)
      · exact Or.inl h1.symm
      · simp [containsKey] at h1
    · rintro (h1 | h1)
      · exact Or.inl h1.symm
      · simp [containsKey] at h1
  | cons p m ih =>
    simp only [mapInsert]
    split
    · simp only [containsKey, Bool.or_eq_true, beq_iff_eq]
      constructor
      · rintro (h1 | h1)
        · exact Or.inl h1.symm
        · exact Or.inr h1
      · rintro (h1 | h1)
        · exact Or.inl h1.symm
        · exact Or.inr h1
    · split
      · rename_i h1 h2
        have hk : k = p.1 := by simpa using h2
        simp only [containsKey, Bool.or_eq_true, beq_iff_eq]
        constructor
        · rintro (h3 | h3)
          · exact Or.inl h3.symm
          · exact Or.inr (Or.inr h3)
        · rintro (h3 | h3 | h3)
          · exact Or.inl h3.symm
          · exact Or.inl (hk.trans h3)
          · exact Or.inr h3
      · simp only [containsKey, Bool.or_eq_true, beq_iff_eq, ih]
        constructor
        · rintro (h3 | h3 | h3)
          · exact Or.inr (Or.inl h3)
          · exact Or.inl h3
          · exact Or.inr (Or.inr h3)
        · rintro (h3 | h3 | h3)
          · exact Or.inr (Or.inl h3)
          · exact Or.inl h3
          · exact Or.inr (Or.inr h3)

theorem containsKey_eraseKey_iff {k j : Nat} {m : List (Nat × User)} :
    containsKey j (eraseKey k m) = true ↔ (j ≠ k ∧ containsKey j m = true) := by
  induction m with
  | nil => simp [eraseKey, containsKey]
  | cons p m ih =>
    simp only [eraseKey]
    split
    · rename_i h
      have hk : p.1 = k := by simpa using h
      simp only [containsKey, Bool.or_eq_true, beq_iff_eq, ih, hk]
      constructor
      · rintro ⟨h1, h2⟩
        exact ⟨h1, Or.inr h2⟩
      · rintro ⟨h1, h2 | h2⟩
        · exact absurd h2.symm h1
        · exact ⟨h1, h2⟩
    · rename_i h
      have hk : p.1 ≠ k := by simpa using h
      simp [containsKey, ih]
      constructor
      · rintro (h1 | h1)
        · exact ⟨by omega, Or.inl h1⟩
        · exact ⟨h1.1, Or.inr h1.2⟩
      · rintro ⟨h1, h2 | h2⟩
        · exact Or.inl h2
        · exact Or.inr ⟨h1, h2⟩

theorem eraseKey_of_not_contains {k : Nat} {m : List (Nat × User)}
    (h : containsKey k m = false) : eraseKey k m = m := by
  induction m with
  | nil => rfl
  | cons p m ih =>
    simp only [containsKey, Bool.or_eq_false_iff] at h
    simp [eraseKey, h.1, ih h.2]

theorem lookupKey_eq_none_of_not_contains {k : Nat} {m : List (Nat × User)}
    (h : containsKey k m = false) : lookupKey k m = none := by
  induction m with
  | nil => rfl
  | cons p m ih =>
    simp only [containsKey, Bool.or_eq_false_iff] at h
    simp only [lookupKey, h.1, if_false]
    exact ih h.2

/-- After removing a present key from a store satisfying Invariant A, the
recomputed next id is the minimum of the removed id and the old next id. -/
theorem next_id_remove_present {d : Data} {id : Nat} (h : Reachable d)
    (_hc : containsKey id d.users = true) :
    (d.remove_user id).2.next_id = min id d.next_id := by
  have hinv := reachable_isMinFree h
  have hmf : IsMinFree (eraseKey id d.users) (min id d.next_id) := by
    constructor
    · rcases le_or_lt id d.next_id with hle | hlt
      · have hmin : min id d.next_id = id := by omega
        rw [hmin]
        cases hb : containsKey id (eraseKey id d.users)
        · rfl
        · exact absurd (containsKey_eraseKey_iff.mp hb).1 (by simp)
      · have hmin : min id d.next_id = d.next_id := by omega
        rw [hmin]
        cases hb : containsKey d.next_id (eraseKey id d.users)
        · rfl
        · have := (containsKey_eraseKey_iff.mp hb).2
          rw [hinv.1] at this
          exact absurd this (by simp)
    · intro j hj
      have hj1 : j < id := by omega
      have hj2 : j < d.next_id := by omega
      exact containsKey_eraseKey_iff.mpr ⟨by omega, hinv.2 j hj2⟩
  have : (d.remove_user id).2 =
      ⟨calcNextId (eraseKey id d.users), eraseKey id d.users⟩ := rfl
  rw [this]
  exact IsMinFree.unique (calcNextId_isMinFree _) hmf

theorem d3_reachable : Reachable d3 :=
  Reachable.add uJim (Reachable.add uJane (Reachable.add uJohn Reachable.empty))

theorem add_user_fullRange {d : Data} (h : FullRange d) (u : User) :
    FullRange (d.add_user u).2 ∧ (d.add_user u).2.next_id = d.next_id + 1 := by
  have husers : (d.add_user u).2.users = mapInsert d.next_id u d.users := rfl
  have hnext : (d.add_user u).2.next_id =
      calcNextId (mapInsert d.next_id u d.users) := rfl
  have hmem : ∀ j, containsKey j (mapInsert d.next_id u d.users) = true ↔
      j < d.next_id + 1 := by
    intro j
    rw [containsKey_mapInsert_iff]
    constructor
    · rintro (h1 | h1)
      · omega
      · have := (h j).mp h1; omega
    · intro h1
      rcases Nat.lt_succ_iff_lt_or_eq.mp h1 with h2 | h2
      · exact Or.inr ((h j).mpr h2)
      · exact Or.inl h2
  have hmf : IsMinFree (mapInsert d.next_id u d.users) (d.next_id + 1) := by
    constructor
    · cases hb : containsKey (d.next_id + 1) (mapInsert d.next_id u d.users)
      · rfl
      · have := (hmem _).mp hb; omega
    · intro j hj; exact (hmem j).mpr hj
  have heq : (d.add_user u).2.next_id = d.next_id + 1 := by
    rw [hnext]
    exact IsMinFree.unique (calcNextId_isMinFree _) hmf
  refine ⟨?_, heq⟩
  intro j
  rw [heq, husers]
  exact hmem j

theorem addAll_next_id {us : List User} :
    ∀ d : Data, FullRange d →
      (addAll d us).next_id = d.next_id + us.length ∧ FullRange (addAll d us) := by
  induction us with
  | nil => intro d h; exact ⟨rfl, h⟩
  | cons u us ih =>
    intro d h
    have hstep := add_user_fullRange h u
    have hrec := ih (d.add_user u).2 hstep.1
    have hfold : addAll d (u :: us) = addAll (d.add_user u).2 us := rfl
    rw [hfold]
    refine ⟨?_, hrec.2⟩
    rw [hrec.1, hstep.2]
    simp
    omega

theorem fullRange_new : FullRange Data.new := by
  intro j
  simp [Data.new, containsKey]

theorem digitVal?_digitChar (d : Nat) (h : d < 10) :
    digitVal? (digitChar d) = some d := by
  interval_cases d <;> rfl

theorem decValAux_append (xs : List Char) (c : Char) (acc : Nat) :
    decValAux (xs ++ [c]) acc =
      match digitVal? c with
      | some d => (decValAux xs acc).map fun v => v * 10 + d
      | none => none := by
  induction xs generalizing acc with
  | nil => cases hc : digitVal? c <;> simp [decValAux, hc]
  | cons x xs ih =>
    cases hx : digitVal? x with
    | none => cases hc : digitVal? c <;> simp [decValAux, hx]
    | some d => cases hc : digitVal? c <;> simp [decValAux, hx, ih, hc]

theorem decValAux_natDigits :
    ∀ fuel n acc : Nat, n < 10 ^ fuel →
      decValAux (natDigits fuel n) acc =
        some (acc * 10 ^ (natDigits fuel n).length + n) := by
  intro fuel
  induction fuel with
  | zero =>
    intro n acc h
    have hn : n = 0 := by simpa using h
    subst hn
    simp [natDigits, decValAux]
  | succ fuel ih =>
    intro n acc h
    by_cases h10 : n < 10
    · simp [natDigits, h10, decValAux, digitVal?_digitChar n h10]
    · simp only [natDigits, h10, if_false]
      rw [decValAux_append, digitVal?_digitChar (n % 10) (Nat.mod_lt _ (by norm_num))]
      have hdiv : n / 10 < 10 ^ fuel := by
        rw [Nat.div_lt_iff_lt_mul (by norm_num)]
        calc n < 10 ^ (fuel + 1) := h
          _ = 10 ^ fuel * 10 := by rw [pow_succ]
      rw [ih (n / 10) acc hdiv]
      have hn10 := Nat.div_add_mod n 10
      simp only [Option.map_some', Option.some.injEq, List.length_append,
        List.length_singleton]
      calc (acc * 10 ^ (natDigits fuel (n / 10)).length + n / 10) * 10 + n % 10
          = acc * (10 ^ (natDigits fuel (n / 10)).length * 10) +
              (10 * (n / 10) + n % 10) := by ring
        _ = acc * 10 ^ ((natDigits fuel (n / 10)).length + 1) + n := by
            rw [hn10, pow_succ]

theorem natDigits_ne_nil (fuel n : Nat) : natDigits (fuel + 1) n ≠ [] := by
  by_cases h : n < 10 <;> simp [natDigits, h]

theorem decToNat?_natToString (k : Nat) :
    decToNat? (natToString k).data = some k := by
  have hdata : (natToString k).data = natDigits (k + 1) k := rfl
  have hk : k < 10 ^ (k + 1) := by
    calc k < 10 ^ k := Nat.lt_pow_self (by norm_num) k
      _ ≤ 10 ^ (k + 1) := Nat.pow_le_pow_right (by norm_num) (by omega)
  have hval := decValAux_natDigits (k + 1) k 0 hk
  rw [hdata]
  cases hl : natDigits (k + 1) k with
  | nil => exact absurd hl (natDigits_ne_nil k k)
  | cons c cs =>
    have : decToNat? (c :: cs) = decValAux (c :: cs) 0 := rfl
    rw [this, ← hl, hval]
    simp

theorem userFromJson_toJson (u : User) :
    User.fromJson (User.toJson u) = some u := rfl

theorem mapInsert_append_of_lt {k : Nat} {v : User} {m : List (Nat × User)}
    (h : ∀ p ∈ m, p.1 < k) : mapInsert k v m = m ++ [(k, v)] := by
  induction m with
  | nil => rfl
  | cons p m ih =>
    have hp : p.1 < k := h p (by simp)
    have h1 : ¬ k < p.1 := by omega
    have h2 : ¬ (k == p.1) = true := by simp; omega
    simp only [mapInsert, h1, if_false, if_neg h2]
    rw [ih fun q hq => h q (by simp [hq])]
    simp

theorem mem_mapInsert {q : Nat × User} {k : Nat} {v : User} {m : List (Nat × User)}
    (h : q ∈ mapInsert k v m) : q.1 = k ∨ q ∈ m := by
  induction m with
  | nil =>
    simp [mapInsert] at h
    simp [h]
  | cons p m ih =>
    by_cases h1 : k < p.1
    · simp only [mapInsert, if_pos h1] at h
      rcases List.mem_cons.mp h with h2 | h2
      · subst h2; exact Or.inl rfl
      · exact Or.inr h2
    · by_cases h2 : (k == p.1) = true
      · simp only [mapInsert, if_neg h1, if_pos h2] at h
        rcases List.mem_cons.mp h with h3 | h3
        · subst h3; exact Or.inl rfl
        · exact Or.inr (List.mem_cons_of_mem p h3)
      · simp only [mapInsert, if_neg h1, if_neg h2] at h
        rcases List.mem_cons.mp h with h3 | h3
        · exact Or.inr (by simp [h3])
        · rcases ih h3 with h4 | h4
          · exact Or.inl h4
          · exact Or.inr (List.mem_cons_of_mem p h4)

theorem mem_eraseKey {q : Nat × User} {k : Nat} {m : List (Nat × User)}
    (h : q ∈ eraseKey k m) : q ∈ m := by
  induction m with
  | nil => simp [eraseKey] at h
  | cons p m ih =>
    by_cases h1 : (p.1 == k) = true
    · simp only [eraseKey, if_pos h1] at h
      exact List.mem_cons_of_mem p (ih h)
    · simp only [eraseKey, if_neg h1] at h
      rcases List.mem_cons.mp h with h2 | h2
      · simp [h2]
      · exact List.mem_cons_of_mem p (ih h2)

theorem mapInsert_sortedKeys {k : Nat} {v : User} {m : List (Nat × User)}
    (h : SortedKeys m) : SortedKeys (mapInsert k v m) := by
  induction m with
  | nil => simp [mapInsert, SortedKeys]
  | cons p m ih =>
    rcases List.pairwise_cons.mp h with ⟨hhead, htail⟩
    by_cases h1 : k < p.1
    · simp only [mapInsert, if_pos h1]
      refine List.pairwise_cons.mpr ⟨?_, h⟩
      intro q hq
      rcases List.mem_cons.mp hq with hq1 | hq1
      · subst hq1; exact h1
      · exact lt_trans h1 (hhead q hq1)
    · by_cases h2 : (k == p.1) = true
      · simp only [mapInsert, if_neg h1, if_pos h2]
        have hk : k = p.1 := by simpa using h2
        refine List.pairwise_cons.mpr ⟨?_, htail⟩
        intro q hq
        rw [hk]
        exact hhead q hq
      · simp only [mapInsert, if_neg h1, if_neg h2]
        have hk : p.1 < k := by
          have hne : ¬ k = p.1 := by simpa using h2
          omega
        refine List.pairwise_cons.mpr ⟨?_, ih htail⟩
        intro q hq
        rcases mem_mapInsert hq with hq1 | hq1
        · omega
        · exact hhead q hq1

theorem eraseKey_sortedKeys {k : Nat} {m : List (Nat × User)}
    (h : SortedKeys m) : SortedKeys (eraseKey k m) := by
  induction m with
  | nil => exact List.Pairwise.nil
  | cons p m ih =>
    rcases List.pairwise_cons.mp h with ⟨hhead, htail⟩
    by_cases h1 : (p.1 == k) = true
    · simp only [eraseKey, if_pos h1]
      exact ih htail
    · simp only [eraseKey, if_neg h1]
      exact List.pairwise_cons.mpr ⟨fun q hq => hhead q (mem_eraseKey hq), ih htail⟩

theorem reachable_sortedKeys {d : Data} (h : Reachable d) : SortedKeys d.users := by
  induction h with
  | empty => exact List.Pairwise.nil
  | add u _ ih => exact mapInsert_sortedKeys ih
  | remove id _ ih => exact eraseKey_sortedKeys ih
  | reset h ih =>
    rename_i d'
    by_cases he : d'.users.isEmpty
    · simpa [Data.reset, he] using ih
    · simp [Data.reset, he, Data.calculate_next_id, SortedKeys]

theorem parseUsersAux_encode :
    ∀ (l acc : List (Nat × User)), SortedKeys (acc ++ l) →
      parseUsersAux (l.map fun p => (natToString p.1, User.toJson p.2)) acc =
        some (acc ++ l) := by
  intro l
  induction l with
  | nil => intro acc _; simp [parseUsersAux]
  | cons p l ih =>
    intro acc hs
    have hlt : ∀ q ∈ acc, q.1 < p.1 := by
      rcases List.pairwise_append.mp hs with ⟨_, _, hcross⟩
      intro q hq
      exact hcross q hq p (by simp)
    have hins : mapInsert p.1 p.2 acc = acc ++ [p] := by
      rw [mapInsert_append_of_lt hlt]
    have hassoc : (acc ++ [p]) ++ l = acc ++ p :: l := by simp
    simp only [List.map_cons, parseUsersAux, decToNat?_natToString,
      userFromJson_toJson]
    rw [hins, ih (acc ++ [p]) (by rw [hassoc]; exact hs), hassoc]

theorem fromJson_toJson {d : Data} (h : SortedKeys d.users) :
    Data.fromJson (Data.toJson d) = some d := by
  have h1 : Data.fromJson (Data.toJson d) =
      (parseUsersAux (d.users.map fun p => (natToString p.1, User.toJson p.2))
        []).map fun m => Data.mk d.next_id m := rfl
  rw [h1, parseUsersAux_encode d.users [] (by simpa using h)]
  simp

theorem parseUsersAux_sorted :
    ∀ (fs : List (String × Json)) (acc m : List (Nat × User)),
      SortedKeys acc → parseUsersAux fs acc = some m → SortedKeys m := by
  intro fs
  induction fs with
  | nil =>
    intro acc m hacc h
    simp [parseUsersAux] at h
    rwa [← h]
  | cons f fs ih =>
    intro acc m hacc h
    simp only [parseUsersAux] at h
    rcases h1 : decToNat? f.1.data with _ | id <;> rw [h1] at h
    · exact absurd h (by simp)
    · rcases h2 : User.fromJson f.2 with _ | u <;> rw [h2] at h
      · exact absurd h (by simp)
      · exact ih _ m (mapInsert_sortedKeys hacc) h

theorem fromJson_sortedKeys {j : Json} {d : Data}
    (h : Data.fromJson j = some d) : SortedKeys d.users := by
  cases j with
  | obj fs =>
    simp only [Data.fromJson] at h
    cases h1 : jlookup "i" fs with
    | none => rw [h1] at h; exact absurd h (by simp)
    | some ji =>
      rw [h1] at h
      cases h2 : jlookup "u" fs with
      | none =>
        rw [h2] at h
        cases ji <;> exact absurd h (by simp)
      | some ju =>
        rw [h2] at h
        cases ji with
        | num i =>
          cases ju with
          | obj ufs =>
            have h4 : Option.map (fun m => Data.mk i m) (parseUsersAux ufs []) =
                some d := h
            cases h3 : parseUsersAux ufs [] with
            | none => rw [h3] at h4; exact absurd h4 (by simp)
            | some m =>
              rw [h3] at h4
              simp only [Option.map_some', Option.some.injEq] at h4
              have hs := parseUsersAux_sorted ufs [] m (by simp [SortedKeys]) h3
              rw [← h4]
              exact hs
          | null => exact absurd h (by simp)
          | bool b => exact absurd h (by simp)
          | num n2 => exact absurd h (by simp)
          | str s2 => exact absurd h (by simp)
          | arr l2 => exact absurd h (by simp)
        | null => exact absurd h (by simp)
        | bool b => exact absurd h (by simp)
        | str s2 => exact absurd h (by simp)
        | arr l2 => exact absurd h (by simp)
        | obj fs2 => exact absurd h (by simp)
  | null => exact absurd h (by simp [Data.fromJson])
  | bool b => exact absurd h (by simp [Data.fromJson])
  | num n => exact absurd h (by simp [Data.fromJson])
  | str s => exact absurd h (by simp [Data.fromJson])
  | arr xs => exact absurd h (by simp [Data.fromJson])

/-- C1: for every store reachable from the empty store by add, remove
and reset, the cached next identifier equals the smallest non-negative
integer not present as a key in the mapping; in particular this holds
again after each of add, remove and reset. -/
theorem c1_next_id_is_min_free (d : Data) (h : Reachable d) :
    IsMinFree d.users d.next_id :=
  reachable_isMinFree h

theorem c1_next_id_is_min_free_witness : IsMinFree d3.users d3.next_id :=
  c1_next_id_is_min_free d3
    (Reachable.add uJim (Reachable.add uJane (Reachable.add uJohn Reachable.empty)))

/-- C2 counterexample: in the store with ids 0, 1, 2 the previous
minimum-free value is 3 (the cached next id), yet removing id 1 — which
is not that value — does change the next id.  So "removing an id does
not change next-id unless the removed id was itself the previous
minimum-free value" fails as stated. -/
theorem c2_counterexample :
    IsMinFree d3.users 3 ∧ d3.next_id = 3 ∧ (1 : Nat) ≠ 3 ∧
      (d3.remove_user 1).2.next_id ≠ d3.next_id := by
  decide

/-- C2 (amended): freed identifiers are reused lowest-first: after adds
returning ids 0, 1, 2, removing id 1 makes the next add return id 1 (not
3); removing id 2 instead makes the next id become 2 again; and removing
a present id leaves the next id unchanged unless the removed id is below
the previous next id, in which case the next id becomes the removed id —
the new next id is the minimum of the removed id and the previous one. -/
theorem c2_lowest_first_reuse :
    (∀ u : User, ((d3.remove_user 1).2.add_user u).1 = 1) ∧
    (d3.remove_user 2).2.next_id = 2 ∧
    ∀ (d : Data) (id : Nat), Reachable d → containsKey id d.users = true →
      (d.remove_user id).2.next_id = min id d.next_id := by
  refine ⟨?_, by decide, ?_⟩
  · intro u
    show (d3.remove_user 1).2.next_id = 1
    decide
  · intro d id h hc
    exact next_id_remove_present h hc

theorem c2_lowest_first_reuse_witness :
    containsKey 1 d3.users = true ∧
      (d3.remove_user 1).2.next_id = min 1 d3.next_id :=
  ⟨by decide, c2_lowest_first_reuse.2.2 d3 1 d3_reachable (by decide)⟩

/-- C3: on every reachable store, removing an identifier that is not a
key returns the not-found value and leaves the store (mapping and cached
next id) exactly as it was, even though the implementation recomputes
the next id unconditionally. -/
theorem c3_remove_absent (d : Data) (id : Nat) (h : Reachable d)
    (habs : containsKey id d.users = false) :
    d.remove_user id = (none, d) := by
  have hinv := reachable_isMinFree h
  have herase : eraseKey id d.users = d.users := eraseKey_of_not_contains habs
  have hlook : lookupKey id d.users = none := lookupKey_eq_none_of_not_contains habs
  have hstep : d.remove_user id =
      (lookupKey id d.users, ⟨calcNextId (eraseKey id d.users), eraseKey id d.users⟩) := rfl
  rw [hstep, hlook, herase,
    IsMinFree.unique (calcNextId_isMinFree d.users) hinv]

theorem c3_remove_absent_witness :
    containsKey 5 d3.users = false ∧ d3.remove_user 5 = (none, d3) :=
  ⟨by decide, c3_remove_absent d3 5 d3_reachable (by decide)⟩

/-- C4: starting from the empty store, for every sequence of adds the
k-th add (0-indexed) returns identifier k: after the adds of the list
us, the next add returns the id us.length. -/
theorem c4_kth_add_returns_k (us : List User) (u : User) :
    ((addAll Data.new us).add_user u).1 = us.length := by
  have h := @addAll_next_id us Data.new fullRange_new
  have hfst : ((addAll Data.new us).add_user u).1 = (addAll Data.new us).next_id := rfl
  rw [hfst, h.1]
  simp [Data.new]

/-- C5: reset on a store with a non-empty mapping returns true, empties
the mapping and sets the next id to 0; reset on a store with an empty
mapping returns false and changes nothing — a successful no-op, not an
error. -/
theorem c5_reset (d : Data) :
    d.reset = (!d.users.isEmpty, if d.users.isEmpty then d else Data.new) := by
  by_cases h : d.users.isEmpty
  · simp [Data.reset, h]
  · simp only [Data.reset, h, Bool.not_false, if_false]
    rfl

/-- C6: loading from a nonexistent path or an empty file yields the
empty store and is not an error; loading non-empty contents that fail to
deserialize signals a deserialization failure (an error, never an empty
store). -/
theorem c6_read_data :
    read_data none = Except.ok Data.new ∧
    read_data (some "") = Except.ok Data.new ∧
    ∀ s : String, s ≠ "" → decodeData s = none →
      read_data (some s) = Except.error IoErr.deserialize := by
  refine ⟨rfl, rfl, ?_⟩
  intro s hs hd
  simp [read_data, hs, hd]

set_option maxRecDepth 10000 in
theorem c6_read_data_witness :
    ("\x7b" : String) ≠ "" ∧
      read_data (some "\x7b") = Except.error IoErr.deserialize :=
  ⟨by decide, c6_read_data.2.2 "\x7b" (by decide) (by decide)⟩

/-- C7: deserializing the serialization of any store that is reachable
from empty (or that itself came out of the deserializer) gives back an
identical store — same mapping, same next id; consequently save-load is
idempotent at the document level, and the save(load(save(load x))) =
save(load x) law also holds at the file-contents level on the
specification's example document. -/
theorem c7_roundtrip :
    (∀ (d : Data) (j : Json), Reachable d ∨ Data.fromJson j = some d →
      Data.fromJson (Data.toJson d) = some d) ∧
    (∀ j : Json, (saveLoad j).bind saveLoad = saveLoad j) ∧
    (loadSaveStr (save_data dJohnJane)).bind loadSaveStr =
      loadSaveStr (save_data dJohnJane) := by
  have hround : ∀ (d : Data) (j : Json), Reachable d ∨ Data.fromJson j = some d →
      Data.fromJson (Data.toJson d) = some d := by
    intro d j h
    rcases h with h | h
    · exact fromJson_toJson (reachable_sortedKeys h)
    · exact fromJson_toJson (fromJson_sortedKeys h)
  refine ⟨hround, ?_, ?_⟩
  · intro j
    cases hj : Data.fromJson j with
    | none => simp [saveLoad, hj]
    | some d =>
      simp only [saveLoad, hj, Option.map_some', Option.some_bind]
      rw [hround d j (Or.inr hj)]
      simp
  · set_option maxRecDepth 400000 in decide

theorem c7_roundtrip_witness :
    Data.fromJson (Data.toJson dJohnJane) = some dJohnJane :=
  c7_roundtrip.1 dJohnJane Json.null
    (Or.inl (Reachable.add uJane (Reachable.add uJohn Reachable.empty)))

/-- C8: the serialized form of any store is one JSON object with exactly
the two fields i (the next id, an integer) and u (the mapping from the
decimal string of each id to the record object with tags n, s, e, p);
on the specification's example store the serializer emits exactly the
document given in the specification. -/
theorem c8_serialized_shape :
    (∀ d : Data, Data.toJson d = Json.obj [("i", Json.num d.next_id),
      ("u", Json.obj (d.users.map fun p => (natToString p.1, User.toJson p.2)))]) ∧
    (∀ u : User, User.toJson u = Json.obj [("n", Json.str u.first_name),
      ("s", Json.str u.last_name), ("e", Json.str u.email),
      ("p", Json.str u.phone_number)]) ∧
    save_data dJohnJane =
      "\x7b\"i\":2,\"u\":\x7b\"0\":\x7b\"n\":\"John\",\"s\":\"Doe\",\"e\":\"john@example.com\",\"p\":\"5551234\"\x7d,\"1\":\x7b\"n\":\"Jane\",\"s\":\"Roe\",\"e\":\"jane@example.com\",\"p\":\"5555678\"\x7d\x7d\x7d" :=
  ⟨fun d => rfl, fun u => rfl, by decide⟩

/-- C9: deserialization does not validate Invariant A: the well-formed
document with i = 0 and a record already stored under key 0 loads into a
store whose next id 0 is not the lowest free id, and the next add then
inserts at the occupied id 0, replacing the existing record and leaving
the size of the mapping unchanged. -/
theorem c9_no_invariant_validation :
    Data.fromJson (Json.obj [("i", Json.num 0),
        ("u", Json.obj [("0", User.toJson uJohn)])]) =
      some ⟨0, [(0, uJohn)]⟩ ∧
    ¬ IsMinFree ((⟨0, [(0, uJohn)]⟩ : Data)).users
        ((⟨0, [(0, uJohn)]⟩ : Data)).next_id ∧
    ((⟨0, [(0, uJohn)]⟩ : Data).add_user uJane).1 = 0 ∧
    ((⟨0, [(0, uJohn)]⟩ : Data).add_user uJane).2.users = [(0, uJane)] ∧
    ((⟨0, [(0, uJohn)]⟩ : Data).add_user uJane).2.users.length =
      ((⟨0, [(0, uJohn)]⟩ : Data)).users.length := by
  decide

/-- C10: the caller-facing reset command only deletes the backing file:
when the file does not exist it returns an I/O error instead of
succeeding as a no-op, even though loading that same path yields the
empty store; when the file exists its content is removed, not
rewritten. -/
theorem c10_reset_deletes_file :
    command_reset none = Except.error IoErr.notFound ∧
    read_data none = Except.ok Data.new ∧
    ∀ s : String, command_reset (some s) = Except.ok none :=
  ⟨rfl, rfl, fun _ => rfl⟩

end UserRegistry
